import Mathlib

/-!
# coredns-no6: the AAAA response filter

A shallow embedding of `no6.go` (package `no6`): the rule validation of
`addDomain`, the match decision and the index-based removal loop of
`No6.ServeDNS`.

Modelling conventions
* A Go `string` is a `List Char`; every byte the code inspects
  (the dot, the classes of the regular expression) is ASCII, so comparing
  characters and comparing bytes agree on valid UTF-8 text.
* A Go slice is a `List`; a `nil` slice and an empty slice are both `[]`.
* The hash set of `go.fuhry.dev/runtime/utils/hashset` is a list of its
  elements in the order `AsSlice` enumerates them.
* The next handler of the plugin chain is represented by what it returned and
  by the message the non-writer captured (`NextResult`).
* A run-time panic (an out-of-range `slices.Delete`) is `none`.
-/

namespace CorednsNo6

/-! ## Go library functions used by the plugin -/

/-- Go `strings.HasSuffix`:
`len(s) >= len(suffix) && s[len(s)-len(suffix):] == suffix`. -/
def HasSuffix (s suffix : List Char) : Bool :=
  decide (s.length ≥ suffix.length) && (s.drop (s.length - suffix.length) == suffix)

/-- Go `strings.TrimSuffix`:
`if HasSuffix(s, suffix) { return s[:len(s)-len(suffix)] }; return s`. -/
def TrimSuffix (s suffix : List Char) : List Char :=
  if HasSuffix s suffix then s.take (s.length - suffix.length) else s

/-- Go `slices.Delete(s, i, j)`: removes `s[i:j]`; panics (here `none`) unless
`0 <= i <= j <= len(s)`. -/
def slicesDelete {α : Type} (s : List α) (i j : Int) : Option (List α) :=
  if 0 ≤ i ∧ i ≤ j ∧ j ≤ (s.length : Int) then
    some (s.take i.toNat ++ s.drop j.toNat)
  else
    none

/-! ## Regular expressions (the fragment used by `regexpValidDomain`) -/

/-- Abstract form of the regular expressions needed for `regexpValidDomain`; a
character class is a list of inclusive ranges. -/
inductive Regexp where
  | nothing : Regexp
  | eps : Regexp
  | cls : List (Char × Char) → Regexp
  | seq : Regexp → Regexp → Regexp
  | alt : Regexp → Regexp → Regexp
  | star : Regexp → Regexp

namespace Regexp

/-- Membership of a character in a class given as inclusive ranges. -/
def inClass (rs : List (Char × Char)) (c : Char) : Bool :=
  rs.any (fun r => decide (r.1.toNat ≤ c.toNat) && decide (c.toNat ≤ r.2.toNat))

/-- Whether the expression matches the empty string. -/
def nullable : Regexp → Bool
  | nothing => false
  | eps => true
  | cls _ => false
  | seq r s => nullable r && nullable s
  | alt r s => nullable r || nullable s
  | star _ => true

/-- Brzozowski derivative of an expression by one character. -/
def deriv (c : Char) : Regexp → Regexp
  | nothing => nothing
  | eps => nothing
  | cls rs => if inClass rs c then eps else nothing
  | seq r s => if nullable r then alt (seq (deriv c r) s) (deriv c s) else seq (deriv c r) s
  | alt r s => alt (deriv c r) (deriv c s)
  | star r => seq (deriv c r) (star r)

/-- Whether the whole input is matched by the expression. -/
def fullMatch (r : Regexp) : List Char → Bool
  | [] => nullable r
  | c :: cs => fullMatch (deriv c r) cs

/-- A literal character, such as `\.`. -/
def lit (c : Char) : Regexp := cls [(c, c)]

/-- The operator `?`. -/
def opt (r : Regexp) : Regexp := alt r eps

/-- The operator `+`. -/
def plus (r : Regexp) : Regexp := seq r (star r)

end Regexp

open Regexp in
/-- The pattern of `regexpValidDomain`, between its anchors:
`\.?[a-z0-9-]+(\.[a-z0-9]+)*`. -/
def regexpValidDomain : Regexp :=
  seq (opt (lit '.'))
    (seq (plus (cls [('a', 'z'), ('0', '9'), ('-', '-')]))
      (star (seq (lit '.') (plus (cls [('a', 'z'), ('0', '9')])))))

/-- Go `(*Regexp).MatchString` for a pattern anchored by `^` and `$` (no flags):
the whole string has to be matched. -/
def MatchString (re : Regexp) (v : List Char) : Bool := re.fullMatch v

/-! ## The hash set of rules -/

/-- The string hash set: its elements, in the order `AsSlice` lists them. -/
structure HashSet where
  elems : List (List Char)
  deriving DecidableEq

namespace HashSet

/-- Go `hashset.NewHashSet[string]()`. -/
def NewHashSet : HashSet := ⟨[]⟩

/-- Go `(*HashSet).Contains`. -/
def Contains (h : HashSet) (v : List Char) : Bool := h.elems.contains v

/-- Go `(*HashSet).Add` of one value: a value already present is not stored twice. -/
def Add (h : HashSet) (v : List Char) : HashSet :=
  if h.Contains v then h else ⟨h.elems ++ [v]⟩

/-- Go `(*HashSet).AsSlice`. -/
def AsSlice (h : HashSet) : List (List Char) := h.elems

end HashSet

/-! ## DNS messages (`github.com/miekg/dns`) -/

/-- Go `dns.RR_Header`. -/
structure RR_Header where
  Name : List Char
  Rrtype : Nat
  Class : Nat
  Ttl : Nat
  deriving DecidableEq

/-- A resource record, by its Go dynamic type: `*dns.A`, `*dns.AAAA`, or any
other record type; the payload is carried along untouched. -/
inductive RR where
  | A (Hdr : RR_Header) (addr : List Nat) : RR
  | AAAA (Hdr : RR_Header) (addr : List Nat) : RR
  | other (Hdr : RR_Header) (rdata : List Nat) : RR
  deriving DecidableEq

/-- Go `dns.Question`. -/
structure Question where
  Name : List Char
  Qtype : Nat
  Qclass : Nat
  deriving DecidableEq

/-- Go `dns.Msg`, with the sections the plugin can see. -/
structure Msg where
  Rcode : Int
  Question : List Question
  Answer : List RR
  Ns : List RR
  Extra : List RR
  deriving DecidableEq

/-- Go `dns.TypeA`. -/
def TypeA : Nat := 1

/-- Go `dns.TypeAAAA`. -/
def TypeAAAA : Nat := 28

/-- Go `dns.TypeANY`. -/
def TypeANY : Nat := 255

/-- Go `dns.RcodeSuccess`. -/
def RcodeSuccess : Int := 0

/-- Go `dns.RcodeServerFailure`. -/
def RcodeServerFailure : Int := 2

/-! ## The plugin -/

/-- The errors of the package; `upstream` is an error returned by the next
handler, `errOnce` is `plugin.ErrOnce`, `noExtraArgs` is the error of a block
line with more than one token. -/
inductive Error where
  | notValidDomain (v : List Char) : Error
  | noAnswerReceived : Error
  | upstream (text : List Char) : Error
  | errOnce : Error
  | noExtraArgs (line : Nat) : Error
  deriving DecidableEq

/-- Go `type No6 struct` (the `Next` handler is an input of `ServeDNS`). -/
structure No6 where
  origins : HashSet
  domains : HashSet
  deriving DecidableEq

/-- Go `New`. -/
def New : No6 := { domains := HashSet.NewHashSet, origins := HashSet.NewHashSet }

/-- Go `(*No6).addDomain`: the receiver after the call and the returned error. -/
def No6.addDomain (s : No6) (v : List Char) : No6 × Option Error :=
  if !MatchString regexpValidDomain v then
    (s, some (Error.notValidDomain v))
  else
    ({ s with domains := s.domains.Add v }, none)

/-- One occurrence of the `no6` directive as the caddy controller hands it out
after `c.Next()`: the tokens `c.RemainingArgs()` returns, and, for the block
that follows, the token `c.Val()` of every `c.NextBlock()` step together with
the `c.RemainingArgs()` of its line. -/
structure Directive where
  args : List (List Char)
  block : List (List Char × List (List Char))
  deriving DecidableEq

/-- The loop `for _, arg := range args` of `no6Parse`: the receiver after the
loop and the first error. -/
def No6.addArgs (s : No6) : List (List Char) → No6 × Option Error
  | [] => (s, none)
  | arg :: rest =>
    match s.addDomain arg with
    | (s, some err) => (s, some err)
    | (s, none) => s.addArgs rest

/-- The loop `for c.NextBlock()` of `no6Parse`, in the directive numbered `i`. -/
def No6.addBlock (s : No6) (i : Nat) : List (List Char × List (List Char)) → No6 × Option Error
  | [] => (s, none)
  | (val, extra) :: rest =>
    match s.addDomain val with
    | (s, some err) => (s, some err)
    | (s, none) =>
      if extra.length > 0 then (s, some (Error.noExtraArgs i)) else s.addBlock i rest

/-- The loop `for c.Next()` of `no6Parse`, with the counter `i`; the result is
the returned pointer (`none` for nil) and the returned error. -/
def no6ParseLoop (s : No6) : Nat → List Directive → Option No6 × Option Error
  | _, [] => (some s, none)
  | i, d :: rest =>
    if i > 0 then
      (some s, some Error.errOnce)
    else
      if d.args.length > 0 then
        match s.addArgs d.args with
        | (_, some err) => (none, some err)
        | (s, none) => no6ParseLoop s (i + 1) rest
      else
        match s.addBlock (i + 1) d.block with
        | (_, some err) => (none, some err)
        | (s, none) => no6ParseLoop s (i + 1) rest

/-- Go `no6Parse`, on the occurrences of the directive. -/
def no6Parse (c : List Directive) : Option No6 × Option Error :=
  no6ParseLoop New 0 c

/-- The controller for `no6 rule ... rule` on one line. -/
def singleLine (rules : List (List Char)) : List Directive :=
  [{ args := rules, block := [] }]

/-- The controller for `no6` followed by a block with one rule per line. -/
def blockForm (rules : List (List Char)) : List Directive :=
  [{ args := [], block := rules.map (fun rule => (rule, [])) }]

/-- The first loop of `ServeDNS`: `questionAAAA` after scanning the questions. -/
def questionAAAA (qs : List Question) : Bool :=
  qs.any (fun q => q.Qtype == TypeAAAA)

/-- The match decision of `ServeDNS` on an already trimmed name: the set lookup,
then the scan of the rules that start with a dot. -/
def No6.matchTrimmed (s : No6) (trimmedName : List Char) : Bool :=
  let filter := s.domains.Contains trimmedName
  if !filter then
    s.domains.AsSlice.any (fun domain =>
      decide (domain.length ≥ 1) && (domain.head? == some '.') && HasSuffix trimmedName domain)
  else
    filter

/-- The value of `filter` that `ServeDNS` computes for an AAAA record with the
given owner name. -/
def No6.filter (s : No6) (name : List Char) : Bool :=
  s.matchTrimmed (TrimSuffix name ['.'])

/-- The variables of the classification loop of `ServeDNS`. -/
structure Scan where
  remove : List Nat
  v4 : Bool
  v6 : Bool
  deriving DecidableEq

/-- One iteration of the classification loop, at index `i`. -/
def No6.scanStep (s : No6) (st : Scan) (i : Nat) (ans : RR) : Scan :=
  match ans with
  | RR.AAAA hdr _ =>
    let st := { st with v6 := true }
    if s.filter hdr.Name then { st with remove := st.remove ++ [i] } else st
  | RR.A _ _ => { st with v4 := true }
  | RR.other _ _ => st

/-- The classification loop `for i, ans := range r.Answer`, from index `i`. -/
def No6.scanLoop (s : No6) : Nat → List RR → Scan → Scan
  | _, [], st => st
  | i, ans :: rest, st => s.scanLoop (i + 1) rest (s.scanStep st i ans)

/-- The removal loop `for i, j := range remove`, from iteration `i`. -/
def removeLoop {α : Type} : Nat → List Nat → List α → Option (List α)
  | _, [], answer => some answer
  | i, j :: rest, answer =>
    let idx : Int := (j : Int) - (i : Int)
    match slicesDelete answer idx (idx + 1) with
    | none => none
    | some answer => removeLoop (i + 1) rest answer

/-- The body of `if questionAAAA || (v4 && v6)`: the new answer section. -/
def removeAnswers {α : Type} (remove : List Nat) (answer : List α) : Option (List α) :=
  if remove.length = answer.length then
    some []
  else
    removeLoop 0 remove answer

/-- Lines 115-167 of `ServeDNS`: the message after the filtering step. -/
def No6.filterMsg (s : No6) (rcode : Int) (r : Msg) : Option Msg :=
  let qAAAA := questionAAAA r.Question
  if rcode = RcodeSuccess then
    let st := s.scanLoop 0 r.Answer ⟨[], false, false⟩
    if qAAAA || (st.v4 && st.v6) then
      match removeAnswers st.remove r.Answer with
      | none => none
      | some answer => some { r with Answer := answer }
    else
      some r
  else
    some r

/-- What `plugin.NextOrFailure` returned, and the message captured by the
non-writer (`nw.Msg`, `none` when nil). -/
structure NextResult where
  rcode : Int
  err : Option Error
  msg : Option Msg
  deriving DecidableEq

/-- What `ServeDNS` returned, and the messages it passed to `w.WriteMsg`. -/
structure ServeResult where
  rcode : Int
  err : Option Error
  written : List Msg
  deriving DecidableEq

/-- Go `(*No6).ServeDNS`; `none` is a panic. -/
def No6.ServeDNS (s : No6) (next : NextResult) : Option ServeResult :=
  match next.err with
  | some e =>
    match next.msg with
    | some m => some ⟨next.rcode, some e, [m]⟩
    | none => some ⟨next.rcode, some e, []⟩
  | none =>
    match next.msg with
    | none => some ⟨RcodeServerFailure, some Error.noAnswerReceived, []⟩
    | some r =>
      match s.filterMsg next.rcode r with
      | none => none
      | some r => some ⟨next.rcode, none, [r]⟩

/-! ## Specification-level views of records and rule sets -/

/-- The record has Go type `*dns.A`. -/
def RR.isA : RR → Bool
  | RR.A _ _ => true
  | _ => false

/-- The record has Go type `*dns.AAAA`. -/
def RR.isAAAA : RR → Bool
  | RR.AAAA _ _ => true
  | _ => false

/-- The header of a record (Go `rr.Header()`). -/
def RR.Header : RR → RR_Header
  | RR.A h _ => h
  | RR.AAAA h _ => h
  | RR.other h _ => h

/-- An AAAA record whose owner name the rule set matches: the records the
classification loop marks. -/
def No6.marked (s : No6) (ans : RR) : Bool :=
  ans.isAAAA && s.filter ans.Header.Name

/-- A plugin whose rule set enumerates the given rules. -/
def withRules (rules : List (List Char)) : No6 :=
  { origins := HashSet.NewHashSet, domains := ⟨rules⟩ }

/-- The indices the classification loop appends to `remove` when it runs over
`answer` starting at index `i`. -/
def No6.markedFrom (s : No6) : Nat → List RR → List Nat
  | _, [] => []
  | i, ans :: rest =>
    if s.marked ans then i :: s.markedFrom (i + 1) rest else s.markedFrom (i + 1) rest

/-- The answers that are not marked, in their original order. -/
def No6.survivors (s : No6) (answer : List RR) : List RR :=
  answer.filter (fun ans => !s.marked ans)

/-- The policy gate of the specification, read off the message: some question
asks for AAAA, or the answers hold an A record and an AAAA record. -/
def Gate (r : Msg) : Prop :=
  (∃ q ∈ r.Question, q.Qtype = TypeAAAA) ∨
    ((∃ a ∈ r.Answer, a.isA = true) ∧ (∃ a ∈ r.Answer, a.isAAAA = true))

instance (r : Msg) : Decidable (Gate r) := by
  unfold Gate
  infer_instance

/-! ## Concrete data, from `TestNo6Response` -/

/-- The rule set of `TestNo6Response`: `six.example.com` and `.ds.example.com`. -/
def testNo6 : No6 := withRules ["six.example.com".toList, ".ds.example.com".toList]

/-- An A record `name 60 IN A`, with the last byte of its address. -/
def testA (name : String) (last : Nat) : RR :=
  RR.A ⟨name.toList, TypeA, 1, 60⟩ [127, 0, 0, last]

/-- An AAAA record `name 60 IN AAAA`, with the last byte of its address. -/
def testAAAA (name : String) (last : Nat) : RR :=
  RR.AAAA ⟨name.toList, TypeAAAA, 1, 60⟩ [0, 0, 0, 0, 0, 0, 0, 0, 0, 0, 0, 0, 0, 0, 0, last]

/-- A successful reply to one question of the given type. -/
def testMsg (qname : String) (qtype : Nat) (answer : List RR) : Msg :=
  { Rcode := RcodeSuccess, Question := [⟨qname.toList, qtype, 1⟩], Answer := answer,
    Ns := [], Extra := [] }

/-- The last case of `TestNo6Response`: an ANY question, three AAAA and two A
records of a name under `.ds.example.com`. -/
def dualStackMsg : Msg :=
  testMsg "sub.ds.example.com." TypeANY
    [testAAAA "sub.ds.example.com." 1, testA "sub.ds.example.com." 1,
      testAAAA "sub.ds.example.com." 2, testAAAA "sub.ds.example.com." 3,
      testA "sub.ds.example.com." 2]

/-- An A question for a filtered name answered by an AAAA record only. -/
def v6OnlyMsg : Msg :=
  testMsg "six.example.com." TypeA [testAAAA "six.example.com." 1]

/-- The second case of `TestNo6Response`: an AAAA question for a filtered name. -/
def pureAAAAMsg : Msg :=
  testMsg "six.example.com." TypeAAAA [testAAAA "six.example.com." 1]

/-- An ANY question for a name no rule covers, answered dual-stack. -/
def unfilteredMsg : Msg :=
  testMsg "four.example.com." TypeANY
    [testAAAA "four.example.com." 1, testA "four.example.com." 1]

/-- The fourth rule of `TestNo6Parse`. -/
def testElbName : List Char :=
  "apiproxy-website-nlb-prod-1-5a4080be4d9bee00.elb.us-east-1.amazonaws.com".toList

/-! ## Views used for the safety and frame properties -/

/-- Every `slices.Delete` call of the removal loop, started at iteration `i` on
the list `answer`, gets an index range inside the current list:
`0 <= idx` and `idx + 1 <= len(answer)` with `idx = j - i`. -/
def deletesInRange {α : Type} : Nat → List Nat → List α → Prop
  | _, [], _ => True
  | i, j :: rest, answer =>
    0 ≤ (j : Int) - (i : Int) ∧ (j : Int) - (i : Int) + 1 ≤ (answer.length : Int) ∧
      deletesInRange (i + 1) rest
        (answer.take ((j : Int) - (i : Int)).toNat ++
          answer.drop ((j : Int) - (i : Int) + 1).toNat)

/-- An A question for the filtered name `six.example.com.` answered by an AAAA
record of that name and an A record of another name. -/
def crossNameMsg : Msg :=
  testMsg "six.example.com." TypeA
    [testAAAA "six.example.com." 1, testA "four.example.com." 1]

/-- The single filtering pass of the specification: keep the elements of `xs`
whose original index is not in `remove`, in their original order. -/
def filterPass {α : Type} (remove : List Nat) (xs : List α) : List α :=
  (xs.enum.filter (fun p => !remove.contains p.1)).map Prod.snd

/-- The filtering pass over a tail of the list whose first element has the
original index `off`. -/
def keepFrom {α : Type} (remove : List Nat) : Nat → List α → List α
  | _, [] => []
  | off, x :: rest =>
    if remove.contains off then keepFrom remove (off + 1) rest
    else x :: keepFrom remove (off + 1) rest

/-! ## The language of a regular expression, and a recogniser for rule strings -/

/-- The strings an expression denotes; a string of `star r` is a concatenation
of strings of `r`. -/
def Regexp.Matches : Regexp → List Char → Prop
  | Regexp.nothing, _ => False
  | Regexp.eps, w => w = []
  | Regexp.cls rs, w => ∃ c, w = [c] ∧ Regexp.inClass rs c = true
  | Regexp.seq r s, w => ∃ u v, w = u ++ v ∧ Regexp.Matches r u ∧ Regexp.Matches s v
  | Regexp.alt r s, w => Regexp.Matches r w ∨ Regexp.Matches s w
  | Regexp.star r, w => ∃ bs : List (List Char), w = bs.flatten ∧ ∀ b ∈ bs, Regexp.Matches r b

/-- The class `[a-z0-9-]` of the first label. -/
def firstLabelChar (c : Char) : Bool :=
  Regexp.inClass [('a', 'z'), ('0', '9'), ('-', '-')] c

/-- The class `[a-z0-9]` of the later labels. -/
def laterLabelChar (c : Char) : Bool :=
  Regexp.inClass [('a', 'z'), ('0', '9')] c

/-- Where a left-to-right reading of a rule string stands: at the start, after
the leading dot, inside the first label, after a separating dot, inside a later
label, or failed. -/
inductive RuleState where
  | start : RuleState
  | leadingDot : RuleState
  | firstLabel : RuleState
  | sepDot : RuleState
  | laterLabel : RuleState
  | dead : RuleState
  deriving DecidableEq

/-- Reading one character. -/
def RuleState.step : RuleState → Char → RuleState
  | RuleState.start, c =>
    if c = '.' then RuleState.leadingDot
    else if firstLabelChar c then RuleState.firstLabel else RuleState.dead
  | RuleState.leadingDot, c =>
    if firstLabelChar c then RuleState.firstLabel else RuleState.dead
  | RuleState.firstLabel, c =>
    if c = '.' then RuleState.sepDot
    else if firstLabelChar c then RuleState.firstLabel else RuleState.dead
  | RuleState.sepDot, c =>
    if laterLabelChar c then RuleState.laterLabel else RuleState.dead
  | RuleState.laterLabel, c =>
    if c = '.' then RuleState.sepDot
    else if laterLabelChar c then RuleState.laterLabel else RuleState.dead
  | RuleState.dead, _ => RuleState.dead

/-- Reading a string. -/
def RuleState.run (q : RuleState) (w : List Char) : RuleState :=
  w.foldl RuleState.step q

/-- The states in which a complete rule string may end. -/
def RuleState.accepting : RuleState → Bool
  | RuleState.firstLabel => true
  | RuleState.laterLabel => true
  | _ => false

/-! ## Library functions -/

theorem HasSuffix_iff (s t : List Char) : HasSuffix s t = true ↔ t <:+ s := by
  unfold HasSuffix
  simp only [ge_iff_le, Bool.and_eq_true, decide_eq_true_eq, beq_iff_eq]
  constructor
  · rintro ⟨_, h⟩
    have hs := List.take_append_drop (s.length - t.length) s
    rw [h] at hs
    exact ⟨s.take (s.length - t.length), hs⟩
  · rintro ⟨u, rfl⟩
    refine ⟨by simp, ?_⟩
    have : (u ++ t).length - t.length = u.length := by simp
    rw [this, List.drop_left]

theorem TrimSuffix_append (n t : List Char) : TrimSuffix (n ++ t) t = n := by
  unfold TrimSuffix
  have h : HasSuffix (n ++ t) t = true := (HasSuffix_iff _ _).2 ⟨n, rfl⟩
  have hl : (n ++ t).length - t.length = n.length := by simp
  rw [if_pos h, hl, List.take_left]

theorem TrimSuffix_of_not_suffix (n t : List Char) (h : ¬ t <:+ n) : TrimSuffix n t = n := by
  unfold TrimSuffix
  rw [if_neg]
  rwa [HasSuffix_iff]

/-! ## The match decision -/

theorem matchTrimmed_iff (s : No6) (t : List Char) :
    s.matchTrimmed t = true ↔
      t ∈ s.domains.elems ∨ ∃ d ∈ s.domains.elems, d.head? = some '.' ∧ d <:+ t := by
  unfold No6.matchTrimmed HashSet.Contains HashSet.AsSlice
  by_cases hc : s.domains.elems.contains t = true
  · simp only [hc, Bool.not_true, Bool.false_eq_true, if_false, true_iff]
    exact Or.inl (by simpa using hc)
  · have hn : t ∉ s.domains.elems := by simpa using hc
    simp only [Bool.not_eq_true] at hc
    simp only [hc, Bool.not_false, if_true, List.any_eq_true, Bool.and_eq_true,
      decide_eq_true_eq, beq_iff_eq, HasSuffix_iff]
    constructor
    · rintro ⟨d, hd, ⟨_, hh⟩, hs⟩
      exact Or.inr ⟨d, hd, hh, hs⟩
    · rintro (h | ⟨d, hd, hh, hs⟩)
      · exact absurd h hn
      · refine ⟨d, hd, ⟨?_, hh⟩, hs⟩
        cases d with
        | nil => simp at hh
        | cons _ _ => simp

/-! ## The classification loop -/

theorem scanLoop_eq (s : No6) (xs : List RR) (i : Nat) (st : Scan) :
    s.scanLoop i xs st =
      ⟨st.remove ++ s.markedFrom i xs, st.v4 || xs.any RR.isA, st.v6 || xs.any RR.isAAAA⟩ := by
  induction xs generalizing i st with
  | nil => simp [No6.scanLoop, No6.markedFrom]
  | cons a rest ih =>
    rw [No6.scanLoop, ih]
    cases a with
    | A hdr addr =>
      simp [No6.scanStep, No6.markedFrom, No6.marked, RR.isA, RR.isAAAA]
    | AAAA hdr addr =>
      by_cases hf : s.filter hdr.Name = true
      · simp [No6.scanStep, No6.markedFrom, No6.marked, RR.isA, RR.isAAAA, RR.Header, hf]
      · simp [No6.scanStep, No6.markedFrom, No6.marked, RR.isA, RR.isAAAA, RR.Header, hf]
    | other hdr rdata =>
      simp [No6.scanStep, No6.markedFrom, No6.marked, RR.isA, RR.isAAAA]

theorem markedFrom_length (s : No6) (xs : List RR) (i : Nat) :
    (s.markedFrom i xs).length = xs.countP s.marked := by
  induction xs generalizing i with
  | nil => simp [No6.markedFrom]
  | cons a rest ih =>
    by_cases hm : s.marked a = true
    · simp [No6.markedFrom, hm, ih]
    · simp [No6.markedFrom, hm, ih]

theorem markedFrom_eq_nil (s : No6) (xs : List RR) (i : Nat)
    (h : ∀ a ∈ xs, s.marked a = false) : s.markedFrom i xs = [] := by
  induction xs generalizing i with
  | nil => simp [No6.markedFrom]
  | cons a rest ih =>
    have ha : s.marked a = false := h a (List.mem_cons_self _ _)
    simp only [No6.markedFrom, ha, Bool.false_eq_true, if_false]
    exact ih (i + 1) (fun b hb => h b (List.mem_cons_of_mem _ hb))

theorem survivors_eq_self (s : No6) (xs : List RR)
    (h : ∀ a ∈ xs, s.marked a = false) : s.survivors xs = xs := by
  unfold No6.survivors
  rw [List.filter_eq_self]
  intro a ha
  simp [h a ha]

theorem survivors_eq_nil_of_length (s : No6) (xs : List RR) (i : Nat)
    (h : (s.markedFrom i xs).length = xs.length) : s.survivors xs = [] := by
  rw [markedFrom_length, List.countP_eq_length] at h
  unfold No6.survivors
  rw [List.filter_eq_nil_iff]
  intro a ha
  simp [h a ha]

/-! ## The removal loop -/

theorem slicesDelete_middle {α : Type} (kept rest : List α) (x : α) :
    slicesDelete (kept ++ x :: rest) (kept.length : Int) ((kept.length : Int) + 1) =
      some (kept ++ rest) := by
  unfold slicesDelete
  have h1 : (0 : Int) ≤ (kept.length : Int) := Int.ofNat_nonneg _
  have h2 : (kept.length : Int) + 1 ≤ ((kept ++ x :: rest).length : Int) := by
    simp only [List.length_append, List.length_cons]
    push_cast
    omega
  rw [if_pos ⟨h1, by omega, h2⟩]
  have e1 : (kept.length : Int).toNat = kept.length := Int.toNat_natCast _
  have e2 : ((kept.length : Int) + 1).toNat = kept.length + 1 := by omega
  rw [e1, e2, List.take_left]
  congr 2
  rw [List.drop_append]
  rfl

theorem removeLoop_markedFrom (s : No6) (rest kept : List RR) (i : Nat) :
    removeLoop i (s.markedFrom (kept.length + i) rest) (kept ++ rest) =
      some (kept ++ s.survivors rest) := by
  induction rest generalizing kept i with
  | nil => simp [No6.markedFrom, No6.survivors, removeLoop]
  | cons x rest ih =>
    by_cases hm : s.marked x = true
    · have hs : s.survivors (x :: rest) = s.survivors rest := by
        simp [No6.survivors, hm]
      have hidx : ((kept.length + i : Nat) : Int) - (i : Int) = (kept.length : Int) := by
        push_cast
        omega
      simp only [No6.markedFrom, hm, if_true, removeLoop, hidx, slicesDelete_middle, hs]
      have := ih kept (i + 1)
      rwa [← Nat.add_assoc] at this
    · have hs : s.survivors (x :: rest) = x :: s.survivors rest := by
        simp [No6.survivors, hm]
      simp only [No6.markedFrom, hm, if_false, hs]
      have := ih (kept ++ [x]) i
      simp only [List.length_append, List.length_singleton, List.append_assoc,
        List.singleton_append] at this
      have e : kept.length + 1 + i = kept.length + i + 1 := by omega
      rwa [e] at this

theorem removeAnswers_markedFrom (s : No6) (xs : List RR) :
    removeAnswers (s.markedFrom 0 xs) xs = some (s.survivors xs) := by
  unfold removeAnswers
  by_cases h : (s.markedFrom 0 xs).length = xs.length
  · rw [if_pos h, survivors_eq_nil_of_length s xs 0 h]
  · rw [if_neg h]
    have := removeLoop_markedFrom s xs [] 0
    simpa using this

/-! ## The filtering step -/

theorem questionAAAA_iff (qs : List Question) :
    questionAAAA qs = true ↔ ∃ q ∈ qs, q.Qtype = TypeAAAA := by
  simp [questionAAAA]

theorem gate_iff (s : No6) (r : Msg) :
    (questionAAAA r.Question ||
      ((s.scanLoop 0 r.Answer ⟨[], false, false⟩).v4 &&
        (s.scanLoop 0 r.Answer ⟨[], false, false⟩).v6)) = true ↔ Gate r := by
  rw [scanLoop_eq]
  simp [Gate, questionAAAA]

/-- The filtering step never panics: under success and the gate it keeps the
unmarked answers, otherwise it returns the message as it is. -/
theorem filterMsg_eq (s : No6) (rcode : Int) (r : Msg) :
    s.filterMsg rcode r =
      some (if rcode = RcodeSuccess ∧ Gate r then
        { r with Answer := s.survivors r.Answer } else r) := by
  unfold No6.filterMsg
  by_cases hr : rcode = RcodeSuccess
  · by_cases hg : Gate r
    · have hg2 := (gate_iff s r).2 hg
      simp only [hr, if_true, hg2, true_and, hg]
      rw [scanLoop_eq]
      simp [removeAnswers_markedFrom]
    · have hg2 : ¬ (_ = true) := fun h => hg ((gate_iff s r).1 h)
      simp only [hr, if_true, hg2, true_and, hg, if_false]
      simp
  · simp [hr]

/-! ## Properties of the response filter and of rule validation -/

/-- C1: when the next handler succeeded and the gate holds (a question of type
AAAA, or an A record and an AAAA record among the answers), `ServeDNS` writes
the message whose answer section is the input section without the AAAA records
whose owner name, one trailing dot stripped, matches the rule set; every other
record is kept, in its original order. -/
theorem C1_gate_removes_exactly_matched_AAAA (s : No6) (r : Msg) (hgate : Gate r) :
    s.ServeDNS ⟨RcodeSuccess, none, some r⟩ =
      some ⟨RcodeSuccess, none,
        [{ r with Answer := r.Answer.filter (fun a =>
            !(a.isAAAA && s.matchTrimmed (TrimSuffix a.Header.Name ['.']))) }]⟩ := by
  simp only [No6.ServeDNS, filterMsg_eq, hgate, and_self, if_true]
  rfl

theorem C1_witness :
    Gate dualStackMsg ∧
      testNo6.ServeDNS ⟨RcodeSuccess, none, some dualStackMsg⟩ =
        some ⟨RcodeSuccess, none,
          [{ dualStackMsg with Answer := dualStackMsg.Answer.filter (fun a =>
              !(a.isAAAA && testNo6.matchTrimmed (TrimSuffix a.Header.Name ['.']))) }]⟩ :=
  ⟨by decide, C1_gate_removes_exactly_matched_AAAA testNo6 dualStackMsg (by decide)⟩

/-- C2: when no question has type AAAA and the answers do not hold both an A
record and an AAAA record, `ServeDNS` writes the message unchanged, whatever the
rule set matches. -/
theorem C2_gate_closed_unchanged (s : No6) (rcode : Int) (r : Msg)
    (hq : ∀ q ∈ r.Question, q.Qtype ≠ TypeAAAA)
    (ha : ¬ ((∃ a ∈ r.Answer, a.isA = true) ∧ (∃ a ∈ r.Answer, a.isAAAA = true))) :
    s.ServeDNS ⟨rcode, none, some r⟩ = some ⟨rcode, none, [r]⟩ := by
  have hg : ¬ Gate r := by
    rintro (⟨q, hq1, hq2⟩ | h)
    · exact hq q hq1 hq2
    · exact ha h
  simp only [No6.ServeDNS, filterMsg_eq, hg, and_false, if_false]

theorem C2_witness :
    (∀ q ∈ v6OnlyMsg.Question, q.Qtype ≠ TypeAAAA) ∧
      ¬ ((∃ a ∈ v6OnlyMsg.Answer, a.isA = true) ∧ (∃ a ∈ v6OnlyMsg.Answer, a.isAAAA = true)) ∧
      (∀ a ∈ v6OnlyMsg.Answer, testNo6.marked a = true) ∧
      testNo6.ServeDNS ⟨RcodeSuccess, none, some v6OnlyMsg⟩ =
        some ⟨RcodeSuccess, none, [v6OnlyMsg]⟩ :=
  ⟨by decide, by decide, by decide,
    C2_gate_closed_unchanged testNo6 RcodeSuccess v6OnlyMsg (by decide) (by decide)⟩

/-- C3: the `filter` flag of `ServeDNS` for an owner name is true exactly when
the name with its trailing dot stripped equals a stored rule that has no leading
dot, or a stored rule that begins with a dot is a suffix of the stripped name;
with the single rule `a.example.com`, `a.example.com` matches and
`b.example.com` does not. -/
theorem C3_filter_flag_iff_exact_or_suffix :
    (∀ (s : No6) (name : List Char),
      s.filter name = true ↔
        (∃ rule ∈ s.domains.elems, rule.head? ≠ some '.' ∧ TrimSuffix name ['.'] = rule) ∨
          (∃ rule ∈ s.domains.elems,
            rule.head? = some '.' ∧ rule <:+ TrimSuffix name ['.'])) ∧
      (withRules ["a.example.com".toList]).filter "a.example.com".toList = true ∧
      (withRules ["a.example.com".toList]).filter "a.example.com.".toList = true ∧
      (withRules ["a.example.com".toList]).filter "b.example.com".toList = false := by
  refine ⟨?_, by decide, by decide, by decide⟩
  intro s name
  unfold No6.filter
  rw [matchTrimmed_iff]
  constructor
  · rintro (h | h)
    · by_cases hd : (TrimSuffix name ['.']).head? = some '.'
      · exact Or.inr ⟨_, h, hd, List.suffix_refl _⟩
      · exact Or.inl ⟨_, h, hd, rfl⟩
    · exact Or.inr h
  · rintro (⟨rule, hr, _, he⟩ | h)
    · exact Or.inl (he ▸ hr)
    · exact Or.inr h

/-- C4 (the code departs from the grammar): `addDomain` rejects the name of the
fourth case of `TestNo6Parse`, and already `a.b-c`, because a label after the
first may not hold a hyphen; the rule set is left as it was. -/
theorem C4_addDomain_rejects_hyphen_in_later_label (s : No6) :
    s.addDomain testElbName = (s, some (Error.notValidDomain testElbName)) ∧
      s.addDomain "a.b-c".toList = (s, some (Error.notValidDomain "a.b-c".toList)) ∧
      s.addDomain "a-b.c".toList = ({ s with domains := s.domains.Add "a-b.c".toList }, none) := by
  have h1 : MatchString regexpValidDomain testElbName = false := by rfl
  have h2 : MatchString regexpValidDomain "a.b-c".toList = false := by decide
  have h3 : MatchString regexpValidDomain "a-b.c".toList = true := by decide
  refine ⟨?_, ?_, ?_⟩
  · unfold No6.addDomain
    rw [h1]
    rfl
  · unfold No6.addDomain
    rw [h2]
    rfl
  · unfold No6.addDomain
    rw [h3]
    rfl

theorem suffix_cons_append_iff (c e : Char) (x d : List Char) :
    (c :: d) <:+ (x ++ e :: d) ↔ c = e := by
  constructor
  · rintro ⟨u, hu⟩
    have hl : u.length = x.length := by
      have := congrArg List.length hu
      simp at this
      omega
    have hx : u ++ c :: d = x ++ e :: d := hu
    have := List.append_inj hx hl
    exact (List.cons.inj this.2).1
  · rintro rfl
    exact ⟨x, rfl⟩

theorem not_suffix_cons_self (c : Char) (d : List Char) : ¬ (c :: d) <:+ d := by
  intro h
  have := h.length_le
  simp at this

theorem matchTrimmed_single_suffix (d n : List Char) :
    (withRules ['.' :: d]).matchTrimmed n = true ↔ ('.' :: d) <:+ n := by
  rw [matchTrimmed_iff]
  simp only [withRules, List.mem_singleton]
  constructor
  · rintro (h | ⟨r, rfl, _, hs⟩)
    · exact h ▸ List.suffix_refl _
    · exact hs
  · intro h
    exact Or.inr ⟨_, rfl, rfl, h⟩

/-- C5: with the single rule `.d`, a name matches exactly when it ends with
`.d`: every `x.d` matches, `d` itself does not, and no `x ++ d` with `x`
non-empty and not ending in a dot matches. -/
theorem C5_single_suffix_rule_label_boundary (d : List Char) :
    (∀ n, (withRules ['.' :: d]).matchTrimmed n = true ↔ ('.' :: d) <:+ n) ∧
      (∀ x, (withRules ['.' :: d]).matchTrimmed (x ++ '.' :: d) = true) ∧
      (withRules ['.' :: d]).matchTrimmed d = false ∧
      (∀ x, x ≠ [] → x.getLast? ≠ some '.' →
        (withRules ['.' :: d]).matchTrimmed (x ++ d) = false) ∧
      (withRules [".example.com".toList]).filter "sub.example.com.".toList = true ∧
      (withRules [".example.com".toList]).filter "example.com.".toList = false ∧
      (withRules [".example.com".toList]).filter "notexample.com.".toList = false := by
  refine ⟨matchTrimmed_single_suffix d, ?_, ?_, ?_, by decide, by decide, by decide⟩
  · intro x
    exact (matchTrimmed_single_suffix d _).2 ⟨x, rfl⟩
  · rw [← Bool.not_eq_true, matchTrimmed_single_suffix]
    exact not_suffix_cons_self _ _
  · intro x hx hl
    rw [← Bool.not_eq_true, matchTrimmed_single_suffix]
    obtain ⟨y, e, rfl⟩ : ∃ y e, x = y ++ [e] :=
      ⟨x.dropLast, x.getLast hx, (List.dropLast_append_getLast hx).symm⟩
    rw [List.append_assoc, List.singleton_append, suffix_cons_append_iff]
    rintro rfl
    exact hl (by simp)

theorem C5_witness :
    "not".toList ≠ [] ∧ "not".toList.getLast? ≠ some '.' ∧
      (withRules [".example.com".toList]).matchTrimmed ("not".toList ++ "example.com".toList)
        = false :=
  ⟨by decide, by decide,
    (C5_single_suffix_rule_label_boundary "example.com".toList).2.2.2.1 "not".toList
      (by decide) (by decide)⟩

/-- C6 fails on the code: with the single rule `.example.com` the name
`example.com` is not matched, with or without its trailing dot, and an AAAA
answer for it is written as it came. -/
theorem C6_counterexample :
    ".example.com".toList ∈ (withRules [".example.com".toList]).domains.elems ∧
      (withRules [".example.com".toList]).matchTrimmed "example.com".toList = false ∧
      (withRules [".example.com".toList]).filter "example.com.".toList = false ∧
      (withRules [".example.com".toList]).ServeDNS ⟨RcodeSuccess, none,
          some (testMsg "example.com." TypeAAAA [testAAAA "example.com." 1])⟩ =
        some ⟨RcodeSuccess, none, [testMsg "example.com." TypeAAAA [testAAAA "example.com." 1]]⟩ := by
  decide

/-- C6 as amended: for a suffix rule `.d` of the rule set, every name ending in
`.d` matches; the rule itself contributes nothing for the name `d`, which
matches exactly when the rule set without `.d` matches it. -/
theorem C6_suffix_rule_matches_subdomains_only (s : No6) (d : List Char)
    (h : '.' :: d ∈ s.domains.elems) :
    (∀ x, s.matchTrimmed (x ++ '.' :: d) = true) ∧
      s.matchTrimmed d =
        ({ s with domains := ⟨s.domains.elems.filter (fun rule => rule != '.' :: d)⟩ } : No6).matchTrimmed d := by
  constructor
  · intro x
    rw [matchTrimmed_iff]
    exact Or.inr ⟨_, h, rfl, ⟨x, rfl⟩⟩
  · rw [Bool.eq_iff_iff, matchTrimmed_iff, matchTrimmed_iff]
    have hne : d ≠ '.' :: d := fun e => by
      have := congrArg List.length e
      simp at this
    simp only [List.mem_filter, bne_iff_ne, ne_eq]
    constructor
    · rintro (hm | ⟨r, hr, hh, hs⟩)
      · exact Or.inl ⟨hm, hne⟩
      · refine Or.inr ⟨r, ⟨hr, ?_⟩, hh, hs⟩
        rintro rfl
        exact not_suffix_cons_self _ _ hs
    · rintro (⟨hm, _⟩ | ⟨r, ⟨hr, _⟩, hh, hs⟩)
      · exact Or.inl hm
      · exact Or.inr ⟨r, hr, hh, hs⟩

theorem C6_witness :
    ".ds.example.com".toList ∈ testNo6.domains.elems ∧
      (∀ x, testNo6.matchTrimmed (x ++ ".ds.example.com".toList) = true) ∧
      testNo6.matchTrimmed "ds.example.com".toList = false := by
  have h := C6_suffix_rule_matches_subdomains_only testNo6 "ds.example.com".toList (by decide)
  refine ⟨by decide, h.1, ?_⟩
  rw [h.2]
  decide

theorem survivors_idem (s : No6) (xs : List RR) :
    s.survivors (s.survivors xs) = s.survivors xs := by
  unfold No6.survivors
  rw [List.filter_filter]
  simp

theorem survivors_keeps_A (s : No6) (xs : List RR) (a : RR) (ha : a ∈ xs)
    (hA : a.isA = true) : a ∈ s.survivors xs := by
  unfold No6.survivors
  rw [List.mem_filter]
  refine ⟨ha, ?_⟩
  cases a <;> simp_all [No6.marked, RR.isA, RR.isAAAA]

/-- C7: for a successful response to a question of type AAAA whose answers are
all AAAA records with owner names the rule set matches, `ServeDNS` writes the
message with an empty answer section and returns the response code of the next
handler, with no error. -/
theorem C7_pure_AAAA_question_emptied (s : No6) (r : Msg)
    (hq : ∃ q ∈ r.Question, q.Qtype = TypeAAAA)
    (ha : ∀ a ∈ r.Answer, a.isAAAA = true ∧ s.filter a.Header.Name = true) :
    s.ServeDNS ⟨RcodeSuccess, none, some r⟩ =
      some ⟨RcodeSuccess, none, [{ r with Answer := [] }]⟩ := by
  have hg : Gate r := Or.inl hq
  have hs : s.survivors r.Answer = [] := by
    unfold No6.survivors
    rw [List.filter_eq_nil_iff]
    intro a h
    simp [No6.marked, ha a h]
  simp only [No6.ServeDNS, filterMsg_eq, hg, and_self, if_true, hs]

theorem C7_witness :
    (∃ q ∈ pureAAAAMsg.Question, q.Qtype = TypeAAAA) ∧
      (∀ a ∈ pureAAAAMsg.Answer, a.isAAAA = true ∧ testNo6.filter a.Header.Name = true) ∧
      testNo6.ServeDNS ⟨RcodeSuccess, none, some pureAAAAMsg⟩ =
        some ⟨RcodeSuccess, none, [{ pureAAAAMsg with Answer := [] }]⟩ :=
  ⟨by decide, by decide,
    C7_pure_AAAA_question_emptied testNo6 pureAAAAMsg (by decide) (by decide)⟩

/-- C8: when no AAAA record of the answers has an owner name (trailing dot
stripped) that the rule set matches, `ServeDNS` writes the captured message as
it is, contents and order, and returns what the next handler returned, whatever
the question type and whether or not A and AAAA records are both present. -/
theorem C8_unmatched_names_untouched (s : No6) (next : NextResult) (r : Msg)
    (hmsg : next.msg = some r)
    (hno : ∀ a ∈ r.Answer, a.isAAAA = true → s.filter a.Header.Name = false) :
    s.ServeDNS next = some ⟨next.rcode, next.err, [r]⟩ := by
  have hm : ∀ a ∈ r.Answer, s.marked a = false := by
    intro a h
    unfold No6.marked
    cases hA : a.isAAAA
    · simp
    · simp [hno a h hA]
  have hr : ({ r with Answer := s.survivors r.Answer } : Msg) = r := by
    rw [survivors_eq_self s _ hm]
  unfold No6.ServeDNS
  rw [hmsg]
  cases he : next.err with
  | some e => rfl
  | none =>
    simp only [filterMsg_eq, hr, ite_self]

theorem C8_witness :
    (∀ a ∈ unfilteredMsg.Answer, a.isAAAA = true → testNo6.filter a.Header.Name = false) ∧
      Gate unfilteredMsg ∧
      testNo6.ServeDNS ⟨RcodeSuccess, none, some unfilteredMsg⟩ =
        some ⟨RcodeSuccess, none, [unfilteredMsg]⟩ :=
  ⟨by decide, by decide,
    C8_unmatched_names_untouched testNo6 ⟨RcodeSuccess, none, some unfilteredMsg⟩
      unfilteredMsg rfl (by decide)⟩

/-- C9: when the message `ServeDNS` writes differs from the one it received,
some question has type AAAA or the written answers still hold an A record. -/
theorem C9_removal_leaves_A_or_AAAA_question (s : No6) (rcode : Int) (r : Msg)
    (hne : s.ServeDNS ⟨rcode, none, some r⟩ ≠ some ⟨rcode, none, [r]⟩) :
    ∃ out : Msg, s.ServeDNS ⟨rcode, none, some r⟩ = some ⟨rcode, none, [out]⟩ ∧
      ((∃ q ∈ r.Question, q.Qtype = TypeAAAA) ∨ ∃ a ∈ out.Answer, a.isA = true) := by
  simp only [No6.ServeDNS, filterMsg_eq] at hne ⊢
  by_cases hc : rcode = RcodeSuccess ∧ Gate r
  · simp only [hc, and_self, if_true] at hne ⊢
    refine ⟨_, rfl, ?_⟩
    rcases hc.2 with hq | ⟨⟨a, ha, hA⟩, _⟩
    · exact Or.inl hq
    · exact Or.inr ⟨a, survivors_keeps_A s _ a ha hA, hA⟩
  · simp only [hc, if_false] at hne
    exact absurd rfl hne

theorem C9_witness :
    testNo6.ServeDNS ⟨RcodeSuccess, none, some dualStackMsg⟩ ≠
        some ⟨RcodeSuccess, none, [dualStackMsg]⟩ ∧
      ∃ out : Msg, testNo6.ServeDNS ⟨RcodeSuccess, none, some dualStackMsg⟩ =
          some ⟨RcodeSuccess, none, [out]⟩ ∧
        ((∃ q ∈ dualStackMsg.Question, q.Qtype = TypeAAAA) ∨ ∃ a ∈ out.Answer, a.isA = true) :=
  ⟨by decide,
    C9_removal_leaves_A_or_AAAA_question testNo6 RcodeSuccess dualStackMsg (by decide)⟩

/-- C10: the filter is idempotent: the filtering step returns a message, and
applied to that message, with the same rule set and response code, it returns it
unchanged; so does `ServeDNS` when handed the message it wrote. -/
theorem C10_filter_idempotent (s : No6) (rcode : Int) (r : Msg) :
    ∃ out : Msg,
      s.filterMsg rcode r = some out ∧ s.filterMsg rcode out = some out ∧
      s.ServeDNS ⟨rcode, none, some r⟩ = some ⟨rcode, none, [out]⟩ ∧
      s.ServeDNS ⟨rcode, none, some out⟩ = some ⟨rcode, none, [out]⟩ := by
  have key : ∀ m : Msg, s.filterMsg rcode m = some m →
      s.ServeDNS ⟨rcode, none, some m⟩ = some ⟨rcode, none, [m]⟩ := by
    intro m hm
    simp only [No6.ServeDNS, hm]
  by_cases hc : rcode = RcodeSuccess ∧ Gate r
  · have h1 : s.filterMsg rcode r = some { r with Answer := s.survivors r.Answer } := by
      rw [filterMsg_eq, if_pos hc]
    have h2 : s.filterMsg rcode { r with Answer := s.survivors r.Answer } =
        some { r with Answer := s.survivors r.Answer } := by
      rw [filterMsg_eq]
      split
      · simp only [survivors_idem]
      · rfl
    refine ⟨_, h1, h2, ?_, key _ h2⟩
    simp only [No6.ServeDNS, h1]
  · have h1 : s.filterMsg rcode r = some r := by
      rw [filterMsg_eq, if_neg hc]
    exact ⟨r, h1, h1, key r h1, key r h1⟩

/-! ## Error paths, frame and determinism -/

/-- C13: when the next handler returns an error, `ServeDNS` returns the response
code and the error it got; a captured message is written with its sections as
captured (no record removed), and with no captured message nothing is written. -/
theorem C13_upstream_error_forwarded (s : No6) (rcode : Int) (e : Error) :
    (∀ m : Msg, s.ServeDNS ⟨rcode, some e, some m⟩ = some ⟨rcode, some e, [m]⟩) ∧
      s.ServeDNS ⟨rcode, some e, none⟩ = some ⟨rcode, some e, []⟩ ∧
      testNo6.ServeDNS ⟨RcodeSuccess, some e, some pureAAAAMsg⟩ =
        some ⟨RcodeSuccess, some e, [pureAAAAMsg]⟩ :=
  ⟨fun _ => rfl, rfl, rfl⟩

/-- C14: when the next handler returns no error and captured no message,
`ServeDNS` returns the server-failure code with the error `no answer received`
and writes nothing, whatever response code the next handler returned. -/
theorem C14_missing_response_is_server_failure (s : No6) (rcode : Int) :
    s.ServeDNS ⟨rcode, none, none⟩ =
        some ⟨RcodeServerFailure, some Error.noAnswerReceived, []⟩ ∧
      RcodeServerFailure = 2 :=
  ⟨rfl, rfl⟩

theorem survivors_sublist (s : No6) (xs : List RR) : (s.survivors xs).Sublist xs :=
  List.filter_sublist xs

theorem survivors_filter_not_AAAA (s : No6) (xs : List RR) :
    (s.survivors xs).filter (fun a => !a.isAAAA) = xs.filter (fun a => !a.isAAAA) := by
  unfold No6.survivors
  rw [List.filter_filter]
  apply List.filter_congr
  intro a _
  cases hA : a.isAAAA <;> simp [No6.marked, hA]

/-- C15: the filter only deletes. Whenever a message was captured, `ServeDNS`
writes one message whose answer section is a subsequence of the captured one,
holds every record that is not an AAAA record (same records, same order), and
whose response code, question list, authority and additional sections are the
captured ones. -/
theorem C15_filter_only_deletes (s : No6) (rcode : Int) (err : Option Error) (r : Msg) :
    ∃ out : Msg,
      s.ServeDNS ⟨rcode, err, some r⟩ = some ⟨rcode, err, [out]⟩ ∧
      out.Answer.Sublist r.Answer ∧
      out.Answer.filter (fun a => !a.isAAAA) = r.Answer.filter (fun a => !a.isAAAA) ∧
      (∀ a ∈ r.Answer, a.isAAAA = false → a ∈ out.Answer) ∧
      out.Question = r.Question ∧ out.Rcode = r.Rcode ∧ out.Ns = r.Ns ∧ out.Extra = r.Extra := by
  have hkeep : ∀ out : Msg, out.Answer.filter (fun a => !a.isAAAA) =
      r.Answer.filter (fun a => !a.isAAAA) → ∀ a ∈ r.Answer, a.isAAAA = false → a ∈ out.Answer := by
    intro out h a ha hA
    have : a ∈ r.Answer.filter (fun a => !a.isAAAA) := by
      rw [List.mem_filter]
      exact ⟨ha, by simp [hA]⟩
    rw [← h] at this
    exact (List.mem_filter.1 this).1
  cases err with
  | some e => exact ⟨r, rfl, List.Sublist.refl _, rfl, hkeep r rfl, rfl, rfl, rfl, rfl⟩
  | none =>
    by_cases hc : rcode = RcodeSuccess ∧ Gate r
    · refine ⟨{ r with Answer := s.survivors r.Answer }, ?_, survivors_sublist s _,
        survivors_filter_not_AAAA s _, hkeep _ (survivors_filter_not_AAAA s _), rfl, rfl, rfl, rfl⟩
      simp only [No6.ServeDNS, filterMsg_eq, hc, and_self, if_true]
    · refine ⟨r, ?_, List.Sublist.refl _, rfl, hkeep r rfl, rfl, rfl, rfl, rfl⟩
      simp only [No6.ServeDNS, filterMsg_eq, hc, if_false]

theorem matchTrimmed_congr (s t : No6)
    (h : ∀ v, v ∈ s.domains.elems ↔ v ∈ t.domains.elems) (n : List Char) :
    s.matchTrimmed n = t.matchTrimmed n := by
  rw [Bool.eq_iff_iff, matchTrimmed_iff, matchTrimmed_iff]
  constructor
  · rintro (hm | ⟨d, hd, hh, hs⟩)
    · exact Or.inl ((h _).1 hm)
    · exact Or.inr ⟨d, (h _).1 hd, hh, hs⟩
  · rintro (hm | ⟨d, hd, hh, hs⟩)
    · exact Or.inl ((h _).2 hm)
    · exact Or.inr ⟨d, (h _).2 hd, hh, hs⟩

theorem survivors_congr (s t : No6)
    (h : ∀ v, v ∈ s.domains.elems ↔ v ∈ t.domains.elems) (xs : List RR) :
    s.survivors xs = t.survivors xs := by
  unfold No6.survivors
  apply List.filter_congr
  intro a _
  simp only [No6.marked, No6.filter, matchTrimmed_congr s t h]

/-- C16: the output does not depend on the order in which the hash set
enumerates its rules: two rule sets with the same members give the same match
decision for every name and the same result of `ServeDNS` for every request; in
particular every permutation of the rule list does. -/
theorem C16_same_rules_same_output (s t : No6)
    (h : ∀ v, v ∈ s.domains.elems ↔ v ∈ t.domains.elems) :
    (∀ name, s.filter name = t.filter name) ∧
      (∀ next, s.ServeDNS next = t.ServeDNS next) := by
  refine ⟨fun name => matchTrimmed_congr s t h _, ?_⟩
  intro next
  unfold No6.ServeDNS
  cases next.err with
  | some e => rfl
  | none =>
    cases next.msg with
    | none => rfl
    | some r => simp only [filterMsg_eq, survivors_congr s t h]

theorem C16_witness :
    (∀ v, v ∈ testNo6.domains.elems ↔
      v ∈ (withRules [".ds.example.com".toList, "six.example.com".toList]).domains.elems) ∧
      testNo6.ServeDNS ⟨RcodeSuccess, none, some dualStackMsg⟩ =
        (withRules [".ds.example.com".toList, "six.example.com".toList]).ServeDNS
          ⟨RcodeSuccess, none, some dualStackMsg⟩ :=
  have h : ∀ v, v ∈ testNo6.domains.elems ↔
      v ∈ (withRules [".ds.example.com".toList, "six.example.com".toList]).domains.elems := by
    intro v
    simp only [testNo6, withRules, List.mem_cons, List.mem_singleton, List.not_mem_nil, or_false]
    exact or_comm
  ⟨h, (C16_same_rules_same_output testNo6 _ h).2 _⟩

/-- C19: when the next handler returns no error and a message but a response
code other than success, `ServeDNS` writes that message unchanged and returns
that code, also for an AAAA question whose AAAA owner names match the rule set. -/
theorem C19_non_success_rcode_unfiltered (s : No6) (rcode : Int) (r : Msg)
    (hr : rcode ≠ RcodeSuccess) :
    s.ServeDNS ⟨rcode, none, some r⟩ = some ⟨rcode, none, [r]⟩ := by
  simp only [No6.ServeDNS, filterMsg_eq, hr, false_and, if_false]

theorem C19_witness :
    (3 : Int) ≠ RcodeSuccess ∧
      (∃ q ∈ pureAAAAMsg.Question, q.Qtype = TypeAAAA) ∧
      (∀ a ∈ pureAAAAMsg.Answer, testNo6.marked a = true) ∧
      testNo6.ServeDNS ⟨3, none, some pureAAAAMsg⟩ = some ⟨3, none, [pureAAAAMsg]⟩ :=
  ⟨by decide, by decide, by decide,
    C19_non_success_rcode_unfiltered testNo6 3 pureAAAAMsg (by decide)⟩

/-- C20: the dual-stack test is per message, not per owner name: with the rule
`six.example.com`, an A question and the answers AAAA `six.example.com.`, A
`four.example.com.`, the AAAA record is removed although no A record has the
owner `six.example.com.`; the written answers hold no record of that name. -/
theorem C20_dual_stack_test_is_per_message :
    ∃ (s : No6) (r out : Msg) (N : List Char),
      (∀ q ∈ r.Question, q.Qtype ≠ TypeAAAA) ∧
      s.filter N = true ∧
      (∃ a ∈ r.Answer, a.isAAAA = true ∧ a.Header.Name = N) ∧
      (∀ a ∈ r.Answer, a.isA = true → a.Header.Name ≠ N) ∧
      s.ServeDNS ⟨RcodeSuccess, none, some r⟩ = some ⟨RcodeSuccess, none, [out]⟩ ∧
      (∀ a ∈ out.Answer, a.Header.Name ≠ N) ∧
      out.Answer = [testA "four.example.com." 1] :=
  ⟨testNo6, crossNameMsg, { crossNameMsg with Answer := [testA "four.example.com." 1] },
    "six.example.com.".toList, by decide, by decide, by decide, by decide, by decide,
    by decide, rfl⟩

/-! ## The removal loop on arbitrary index lists -/

theorem slicesDelete_eq_some_iff {α : Type} (xs ys : List α) (i j : Int) :
    slicesDelete xs i j = some ys ↔
      (0 ≤ i ∧ i ≤ j ∧ j ≤ (xs.length : Int)) ∧ ys = xs.take i.toNat ++ xs.drop j.toNat := by
  unfold slicesDelete
  split
  · rename_i h
    simp only [Option.some.injEq, h, and_self, true_and]
    exact eq_comm
  · rename_i h
    simp [h]

theorem removeLoop_isSome_iff {α : Type} (remove : List Nat) (i : Nat) (xs : List α) :
    (∃ ys, removeLoop i remove xs = some ys) ↔ deletesInRange i remove xs := by
  induction remove generalizing i xs with
  | nil => simp [removeLoop, deletesInRange]
  | cons j rest ih =>
    simp only [removeLoop, deletesInRange]
    by_cases h : 0 ≤ (j : Int) - (i : Int) ∧ (j : Int) - (i : Int) + 1 ≤ (xs.length : Int)
    · have hd : slicesDelete xs ((j : Int) - (i : Int)) ((j : Int) - (i : Int) + 1) =
          some (xs.take ((j : Int) - (i : Int)).toNat ++
            xs.drop ((j : Int) - (i : Int) + 1).toNat) := by
        rw [slicesDelete_eq_some_iff]
        exact ⟨⟨h.1, by omega, h.2⟩, rfl⟩
      rw [hd]
      simp only [ih, h.1, h.2, true_and]
    · have hd : slicesDelete xs ((j : Int) - (i : Int)) ((j : Int) - (i : Int) + 1) = none := by
        unfold slicesDelete
        rw [if_neg]
        rintro ⟨h1, _, h3⟩
        exact h ⟨h1, h3⟩
      rw [hd]
      constructor
      · rintro ⟨ys, hy⟩
        exact absurd hy (by simp)
      · rintro ⟨h1, h2, _⟩
        exact absurd ⟨h1, h2⟩ h

/-- C18: every deletion of the removal loop is in range: for the indices the
classification loop collected, each `idx = j - i` satisfies `0 <= idx` and
`idx + 1 <= len` of the current answer list, so `slices.Delete` does not panic:
the loop, the filtering step and `ServeDNS` always return. -/
theorem C18_deletes_in_range (s : No6) (r : Msg) :
    deletesInRange 0 (s.scanLoop 0 r.Answer ⟨[], false, false⟩).remove r.Answer ∧
      (∃ answer, removeLoop 0 (s.scanLoop 0 r.Answer ⟨[], false, false⟩).remove r.Answer =
        some answer) ∧
      (∀ rcode, ∃ out, s.filterMsg rcode r = some out) ∧
      (∀ next, ∃ res, s.ServeDNS next = some res) := by
  have hloop : ∃ answer,
      removeLoop 0 (s.scanLoop 0 r.Answer ⟨[], false, false⟩).remove r.Answer = some answer := by
    rw [scanLoop_eq]
    have := removeLoop_markedFrom s r.Answer [] 0
    simp only [List.length_nil, Nat.zero_add, List.nil_append] at this
    exact ⟨_, by simpa using this⟩
  refine ⟨(removeLoop_isSome_iff _ 0 _).1 hloop, hloop, fun rcode => ⟨_, filterMsg_eq s rcode r⟩, ?_⟩
  intro next
  unfold No6.ServeDNS
  cases next.err with
  | some e =>
    cases next.msg with
    | none => exact ⟨_, rfl⟩
    | some m => exact ⟨_, rfl⟩
  | none =>
    cases next.msg with
    | none => exact ⟨_, rfl⟩
    | some m =>
      simp only [filterMsg_eq]
      exact ⟨_, rfl⟩

theorem keepFrom_congr {α : Type} (rem rem' : List Nat) (off : Nat) (xs : List α)
    (h : ∀ k, off ≤ k → (k ∈ rem ↔ k ∈ rem')) :
    keepFrom rem off xs = keepFrom rem' off xs := by
  induction xs generalizing off with
  | nil => rfl
  | cons x rest ih =>
    have hc : rem.contains off = rem'.contains off := by
      rw [Bool.eq_iff_iff]
      simpa using h off (Nat.le_refl _)
    simp only [keepFrom, hc]
    rw [ih (off + 1) (fun k hk => h k (by omega))]

theorem filterPass_eq_keepFrom {α : Type} (rem : List Nat) (xs : List α) :
    filterPass rem xs = keepFrom rem 0 xs := by
  have aux : ∀ (off : Nat) (ys : List α),
      ((ys.enumFrom off).filter (fun p => !rem.contains p.1)).map Prod.snd
        = keepFrom rem off ys := by
    intro off ys
    induction ys generalizing off with
    | nil => rfl
    | cons y rest ih =>
      cases hc : rem.contains off
      · simp only [List.enumFrom_cons, keepFrom, List.filter_cons, hc, Bool.not_false,
          if_true, Bool.false_eq_true, if_false, List.map_cons, ih]
      · simp only [List.enumFrom_cons, keepFrom, List.filter_cons, hc, Bool.not_true,
          if_true, Bool.false_eq_true, if_false, ih]
  exact aux 0 xs

theorem removeLoop_keepFrom {α : Type} (rest kept : List α) (i : Nat) (rem : List Nat)
    (hs : rem.Pairwise (fun a b => a < b))
    (hlo : ∀ j ∈ rem, kept.length + i ≤ j)
    (hhi : ∀ j ∈ rem, j < kept.length + i + rest.length) :
    removeLoop i rem (kept ++ rest) = some (kept ++ keepFrom rem (kept.length + i) rest) := by
  induction rest generalizing kept i rem with
  | nil =>
    cases rem with
    | nil => simp [removeLoop, keepFrom]
    | cons j rem' =>
      have h1 := hlo j (List.mem_cons_self _ _)
      have h2 := hhi j (List.mem_cons_self _ _)
      simp only [List.length_nil, Nat.add_zero] at h2
      omega
  | cons x rest ih =>
    by_cases hmem : kept.length + i ∈ rem
    · cases rem with
      | nil => simp at hmem
      | cons j rem' =>
        have hj := hlo j (List.mem_cons_self _ _)
        have hp := List.pairwise_cons.1 hs
        have hje : j = kept.length + i := by
          rcases List.mem_cons.1 hmem with h | h
          · exact h.symm
          · have := hp.1 _ h
            omega
        subst hje
        have hidx : ((kept.length + i : Nat) : Int) - (i : Int) = (kept.length : Int) := by
          push_cast
          omega
        have hc : ((kept.length + i) :: rem').contains (kept.length + i) = true := by simp
        simp only [removeLoop, hidx, slicesDelete_middle, keepFrom, hc, if_true]
        have h := ih kept (i + 1) rem' hp.2
          (fun j hj => by have := hp.1 j hj; omega)
          (fun j hj => by
            have := hhi j (List.mem_cons_of_mem _ hj)
            simp only [List.length_cons] at this
            omega)
        rw [h, ← Nat.add_assoc]
        congr 2
        apply keepFrom_congr
        intro k hk
        simp only [List.mem_cons]
        constructor
        · intro h'
          exact Or.inr h'
        · rintro (h' | h')
          · omega
          · exact h'
    · have hc : rem.contains (kept.length + i) = false := by simpa using hmem
      simp only [keepFrom, hc, Bool.false_eq_true, if_false]
      have h := ih (kept ++ [x]) i rem hs
        (fun j hj => by
          have h1 := hlo j hj
          have h2 : j ≠ kept.length + i := fun e => hmem (e ▸ hj)
          simp only [List.length_append, List.length_singleton]
          omega)
        (fun j hj => by
          have := hhi j hj
          simp only [List.length_cons] at this
          simp only [List.length_append, List.length_singleton]
          omega)
      simp only [List.length_append, List.length_singleton, List.append_assoc,
        List.singleton_append] at h
      have e : kept.length + 1 + i = kept.length + i + 1 := by omega
      rw [e] at h
      exact h

theorem removeLoop_length {α : Type} (rem : List Nat) (i : Nat) (xs ys : List α)
    (h : removeLoop i rem xs = some ys) : ys.length + rem.length = xs.length := by
  induction rem generalizing i xs with
  | nil =>
    simp only [removeLoop, Option.some.injEq] at h
    simp [h]
  | cons j rest ih =>
    simp only [removeLoop] at h
    cases hd : slicesDelete xs ((j : Int) - (i : Int)) ((j : Int) - (i : Int) + 1) with
    | none => simp [hd] at h
    | some zs =>
      rw [hd] at h
      have hz := ih (i + 1) zs h
      obtain ⟨⟨h0, _, h2⟩, rfl⟩ := (slicesDelete_eq_some_iff _ _ _ _).1 hd
      simp only [List.length_append, List.length_take, List.length_drop, List.length_cons] at hz ⊢
      omega

/-- C17: for a strictly ascending list `remove` of valid indices of `xs`, the
shift-compensated loop (delete position `j - i` for the `i`-th entry `j`), with
the shortcut that assigns the empty list when `len(remove) = len(xs)`, returns
what the single filtering pass returns: the elements of `xs` whose original
index is not in `remove`, in order. For five elements and the indices 0, 2, 4
the result is the second and the fourth. -/
theorem C17_removal_loop_refines_filter_pass {α : Type} (xs : List α) (remove : List Nat)
    (hasc : remove.Pairwise (fun a b => a < b)) (hvalid : ∀ j ∈ remove, j < xs.length) :
    removeAnswers remove xs = some (filterPass remove xs) ∧
      removeLoop 0 remove xs = some (filterPass remove xs) ∧
      (∀ a b c d e : α, removeAnswers [0, 2, 4] [a, b, c, d, e] = some [b, d]) := by
  have hloop : removeLoop 0 remove xs = some (filterPass remove xs) := by
    have h := removeLoop_keepFrom xs [] 0 remove hasc (fun j _ => by simp)
      (fun j hj => by simpa using hvalid j hj)
    rw [filterPass_eq_keepFrom]
    simpa using h
  refine ⟨?_, hloop, ?_⟩
  · unfold removeAnswers
    split
    · rename_i hlen
      have := removeLoop_length remove 0 xs _ hloop
      have h0 : (filterPass remove xs).length = 0 := by omega
      rw [List.length_eq_zero.1 h0]
    · exact hloop
  · intro a b c d e
    rfl

theorem C17_witness :
    ([0, 2, 4] : List Nat).Pairwise (fun a b => a < b) ∧
      (∀ j ∈ ([0, 2, 4] : List Nat), j < [10, 11, 12, 13, 14].length) ∧
      removeAnswers [0, 2, 4] [10, 11, 12, 13, 14] = some [11, 13] ∧
      filterPass [0, 2, 4] [10, 11, 12, 13, 14] = [11, 13] :=
  ⟨by decide, by decide,
    (C17_removal_loop_refines_filter_pass [10, 11, 12, 13, 14] [0, 2, 4] (by decide)
      (by decide)).1.trans (by decide),
    by decide⟩

/-! ## Parsing the directive -/

theorem HashSet.mem_Add (h : HashSet) (v w : List Char) :
    w ∈ (h.Add v).elems ↔ w ∈ h.elems ∨ w = v := by
  unfold HashSet.Add HashSet.Contains
  by_cases hc : h.elems.contains v = true
  · rw [if_pos hc]
    have hv : v ∈ h.elems := by simpa using hc
    constructor
    · exact Or.inl
    · rintro (hw | rfl)
      · exact hw
      · exact hv
  · rw [if_neg hc]
    simp

theorem HashSet.nodup_Add (h : HashSet) (v : List Char) (hn : h.elems.Nodup) :
    (h.Add v).elems.Nodup := by
  unfold HashSet.Add HashSet.Contains
  by_cases hc : h.elems.contains v = true
  · rw [if_pos hc]
    exact hn
  · rw [if_neg hc]
    have hv : v ∉ h.elems := by simpa using hc
    rw [List.nodup_append]
    refine ⟨hn, List.nodup_singleton v, ?_⟩
    intro a ha hb
    rw [List.mem_singleton] at hb
    exact hv (hb ▸ ha)

theorem addDomain_of_valid (s : No6) (v : List Char)
    (h : MatchString regexpValidDomain v = true) :
    s.addDomain v = ({ s with domains := s.domains.Add v }, none) := by
  unfold No6.addDomain
  rw [h]
  rfl

theorem addDomain_of_invalid (s : No6) (v : List Char)
    (h : MatchString regexpValidDomain v = false) :
    s.addDomain v = (s, some (Error.notValidDomain v)) := by
  unfold No6.addDomain
  rw [h]
  rfl

theorem addArgs_of_invalid (rules : List (List Char)) (s : No6)
    (h : ∃ v ∈ rules, MatchString regexpValidDomain v = false) :
    ∃ t e, s.addArgs rules = (t, some e) := by
  induction rules generalizing s with
  | nil => simp at h
  | cons r rest ih =>
    cases hr : MatchString regexpValidDomain r with
    | false =>
      simp only [No6.addArgs, addDomain_of_invalid s r hr]
      exact ⟨_, _, rfl⟩
    | true =>
      simp only [No6.addArgs, addDomain_of_valid s r hr]
      apply ih
      obtain ⟨v, hv, hm⟩ := h
      rcases List.mem_cons.1 hv with rfl | hv
      · rw [hr] at hm
        exact absurd hm (by simp)
      · exact ⟨v, hv, hm⟩

theorem addArgs_of_valid (rules : List (List Char)) (s : No6)
    (h : ∀ v ∈ rules, MatchString regexpValidDomain v = true) :
    ∃ t, s.addArgs rules = (t, none) ∧ t.origins = s.origins ∧
      (s.domains.elems.Nodup → t.domains.elems.Nodup) ∧
      ∀ w, w ∈ t.domains.elems ↔ w ∈ s.domains.elems ∨ w ∈ rules := by
  induction rules generalizing s with
  | nil => exact ⟨s, rfl, rfl, id, by simp⟩
  | cons r rest ih =>
    have hr := h r (List.mem_cons_self _ _)
    obtain ⟨t, ht, ho, hn, hm⟩ :=
      ih { s with domains := s.domains.Add r } (fun v hv => h v (List.mem_cons_of_mem _ hv))
    refine ⟨t, ?_, ho, fun hs => hn (HashSet.nodup_Add _ _ hs), ?_⟩
    · simp only [No6.addArgs, addDomain_of_valid s r hr]
      exact ht
    · intro w
      rw [hm, HashSet.mem_Add, List.mem_cons]
      tauto

theorem addBlock_one_rule_per_line (rules : List (List Char)) (s : No6) (i : Nat) :
    s.addBlock i (rules.map (fun rule => (rule, []))) = s.addArgs rules := by
  induction rules generalizing s with
  | nil => rfl
  | cons r rest ih =>
    simp only [List.map_cons, No6.addBlock, No6.addArgs]
    cases hr : MatchString regexpValidDomain r with
    | false => simp only [addDomain_of_invalid s r hr]
    | true =>
      simp only [addDomain_of_valid s r hr, List.length_nil, gt_iff_lt, Nat.lt_irrefl, if_false]
      exact ih _

theorem no6Parse_singleLine (rules : List (List Char)) :
    no6Parse (singleLine rules) =
      match New.addArgs rules with
      | (_, some err) => (none, some err)
      | (s, none) => (some s, none) := by
  unfold no6Parse singleLine
  cases rules with
  | nil => rfl
  | cons r rest =>
    simp only [no6ParseLoop, Nat.lt_irrefl, if_false, gt_iff_lt, List.length_cons,
      Nat.zero_lt_succ, if_true]

theorem no6Parse_blockForm (rules : List (List Char)) :
    no6Parse (blockForm rules) = no6Parse (singleLine rules) := by
  rw [no6Parse_singleLine]
  unfold no6Parse blockForm
  simp only [no6ParseLoop, Nat.lt_irrefl, if_false, gt_iff_lt, List.length_nil,
    addBlock_one_rule_per_line]

/-- C12: for the rules of a single `no6` directive, on one line or in a block
with one rule per line, `no6Parse` returns an error and no matcher exactly when
some rule fails validation; otherwise it returns, with no error, a matcher whose
rule set holds each distinct given rule once and nothing else, so the set does
not depend on the order of the rules or on the form used. -/
theorem C12_no6Parse_all_or_nothing (rules : List (List Char)) :
    no6Parse (blockForm rules) = no6Parse (singleLine rules) ∧
      ((∃ v ∈ rules, MatchString regexpValidDomain v = false) →
        ∃ e, no6Parse (singleLine rules) = (none, some e)) ∧
      ((∀ v ∈ rules, MatchString regexpValidDomain v = true) →
        ∃ s, no6Parse (singleLine rules) = (some s, none) ∧
          s.domains.elems.Perm rules.dedup ∧
          ∀ rules' s', rules'.Perm rules → no6Parse (blockForm rules') = (some s', none) →
            s'.domains.elems.Perm s.domains.elems) := by
  have valid : ∀ rs : List (List Char), (∀ v ∈ rs, MatchString regexpValidDomain v = true) →
      ∃ s, no6Parse (singleLine rs) = (some s, none) ∧ s.domains.elems.Perm rs.dedup := by
    intro rs h
    obtain ⟨t, ht, _, hn, hm⟩ := addArgs_of_valid rs New h
    refine ⟨t, ?_, ?_⟩
    · rw [no6Parse_singleLine, ht]
    · rw [List.perm_ext_iff_of_nodup (hn List.nodup_nil) (List.nodup_dedup _)]
      intro w
      rw [hm, List.mem_dedup]
      simp [New, HashSet.NewHashSet]
  refine ⟨no6Parse_blockForm rules, ?_, ?_⟩
  · intro h
    obtain ⟨t, e, hte⟩ := addArgs_of_invalid rules New h
    exact ⟨e, by rw [no6Parse_singleLine, hte]⟩
  · intro h
    obtain ⟨s, hs, hp⟩ := valid rules h
    refine ⟨s, hs, hp, ?_⟩
    intro rules' s' hperm hs'
    obtain ⟨t, ht, hp'⟩ := valid rules' (fun v hv => h v (hperm.mem_iff.1 hv))
    rw [no6Parse_blockForm, ht] at hs'
    have e : t = s' := by
      have := congrArg Prod.fst hs'
      exact Option.some.inj this
    subst e
    exact hp'.trans ((hperm.dedup).trans hp.symm)

theorem C12_witness :
    (∀ v ∈ ["example.com".toList, ".example.com".toList],
        MatchString regexpValidDomain v = true) ∧
      (∃ s, no6Parse (singleLine ["example.com".toList, ".example.com".toList]) = (some s, none) ∧
        s.domains.elems.Perm [".example.com".toList, "example.com".toList]) ∧
      (∃ v ∈ ["invalid.".toList], MatchString regexpValidDomain v = false) ∧
      (∃ e, no6Parse (singleLine ["invalid.".toList]) = (none, some e)) := by
  have hv : ∀ v ∈ ["example.com".toList, ".example.com".toList],
      MatchString regexpValidDomain v = true := by decide
  have hi : ∃ v ∈ ["invalid.".toList], MatchString regexpValidDomain v = false := by decide
  obtain ⟨s, hs, hp, _⟩ :=
    (C12_no6Parse_all_or_nothing ["example.com".toList, ".example.com".toList]).2.2 hv
  refine ⟨hv, ⟨s, hs, hp.trans ?_⟩, hi, (C12_no6Parse_all_or_nothing ["invalid.".toList]).2.1 hi⟩
  decide

/-! ## What `regexpValidDomain` can match -/

theorem nullable_sound (r : Regexp) (h : r.nullable = true) : r.Matches [] := by
  induction r with
  | nothing => simp [Regexp.nullable] at h
  | eps => rfl
  | cls rs => simp [Regexp.nullable] at h
  | seq r s ihr ihs =>
    simp only [Regexp.nullable, Bool.and_eq_true] at h
    exact ⟨[], [], rfl, ihr h.1, ihs h.2⟩
  | alt r s ihr ihs =>
    simp only [Regexp.nullable, Bool.or_eq_true] at h
    rcases h with h | h
    · exact Or.inl (ihr h)
    · exact Or.inr (ihs h)
  | star r _ => exact ⟨[], rfl, by simp⟩

theorem deriv_sound (c : Char) (r : Regexp) (w : List Char)
    (h : (r.deriv c).Matches w) : r.Matches (c :: w) := by
  induction r generalizing w with
  | nothing => exact h
  | eps => exact absurd h (by simp [Regexp.deriv, Regexp.Matches])
  | cls rs =>
    simp only [Regexp.deriv] at h
    split at h
    · rename_i hc
      simp only [Regexp.Matches] at h
      exact ⟨c, by rw [h], hc⟩
    · exact absurd h (by simp [Regexp.Matches])
  | seq r s ihr ihs =>
    simp only [Regexp.deriv] at h
    split at h
    · rename_i hn
      rcases h with ⟨u, v, rfl, hu, hv⟩ | h
      · exact ⟨c :: u, v, rfl, ihr u hu, hv⟩
      · exact ⟨[], c :: w, rfl, nullable_sound r hn, ihs w h⟩
    · obtain ⟨u, v, rfl, hu, hv⟩ := h
      exact ⟨c :: u, v, rfl, ihr u hu, hv⟩
  | alt r s ihr ihs =>
    rcases h with h | h
    · exact Or.inl (ihr w h)
    · exact Or.inr (ihs w h)
  | star r ih =>
    obtain ⟨u, v, rfl, hu, bs, rfl, hbs⟩ := h
    refine ⟨(c :: u) :: bs, by simp, ?_⟩
    intro b hb
    rcases List.mem_cons.1 hb with rfl | hb
    · exact ih u hu
    · exact hbs b hb

theorem fullMatch_sound (r : Regexp) (w : List Char) (h : r.fullMatch w = true) :
    r.Matches w := by
  induction w generalizing r with
  | nil => exact nullable_sound r h
  | cons c cs ih => exact deriv_sound c r cs (ih _ h)

theorem run_append (q : RuleState) (u v : List Char) :
    q.run (u ++ v) = (q.run u).run v := by
  unfold RuleState.run
  rw [List.foldl_append]

theorem run_dead (w : List Char) : RuleState.dead.run w = RuleState.dead := by
  induction w with
  | nil => rfl
  | cons c cs ih => exact ih

theorem lit_matches (c0 : Char) (u : List Char) (h : (Regexp.lit c0).Matches u) :
    u = [c0] := by
  obtain ⟨c, rfl, hc⟩ := h
  simp only [Regexp.inClass, List.any_cons, List.any_nil, Bool.or_false, Bool.and_eq_true,
    decide_eq_true_eq] at hc
  have e : c.toNat = c0.toNat := by omega
  have := congrArg Char.ofNat e
  rw [Char.ofNat_toNat, Char.ofNat_toNat] at this
  rw [this]

theorem plus_cls_matches (rs : List (Char × Char)) (b : List Char)
    (h : (Regexp.plus (Regexp.cls rs)).Matches b) :
    ∃ c0 l, b = c0 :: l ∧ Regexp.inClass rs c0 = true ∧ ∀ c ∈ l, Regexp.inClass rs c = true := by
  obtain ⟨u, v, rfl, ⟨c0, rfl, hc0⟩, bs, rfl, hbs⟩ := h
  refine ⟨c0, bs.flatten, rfl, hc0, ?_⟩
  intro c hc
  obtain ⟨blk, hblk, hcb⟩ := List.mem_flatten.1 hc
  obtain ⟨c', rfl, hc'⟩ := hbs blk hblk
  rw [List.mem_singleton] at hcb
  rw [hcb]
  exact hc'

theorem firstLabelChar_ne_dot (c : Char) (h : firstLabelChar c = true) : c ≠ '.' := by
  rintro rfl
  exact absurd h (by decide)

theorem laterLabelChar_ne_dot (c : Char) (h : laterLabelChar c = true) : c ≠ '.' := by
  rintro rfl
  exact absurd h (by decide)

theorem run_firstLabel (l : List Char) (h : ∀ c ∈ l, firstLabelChar c = true) :
    RuleState.firstLabel.run l = RuleState.firstLabel := by
  induction l with
  | nil => rfl
  | cons c cs ih =>
    have hc := h c (List.mem_cons_self _ _)
    have hs : RuleState.firstLabel.step c = RuleState.firstLabel := by
      simp only [RuleState.step, firstLabelChar_ne_dot c hc, hc, if_true, if_false]
    show (RuleState.firstLabel.step c).run cs = _
    rw [hs]
    exact ih (fun d hd => h d (List.mem_cons_of_mem _ hd))

theorem run_laterLabel (l : List Char) (h : ∀ c ∈ l, laterLabelChar c = true) :
    RuleState.laterLabel.run l = RuleState.laterLabel := by
  induction l with
  | nil => rfl
  | cons c cs ih =>
    have hc := h c (List.mem_cons_self _ _)
    have hs : RuleState.laterLabel.step c = RuleState.laterLabel := by
      simp only [RuleState.step, laterLabelChar_ne_dot c hc, hc, if_true, if_false]
    show (RuleState.laterLabel.step c).run cs = _
    rw [hs]
    exact ih (fun d hd => h d (List.mem_cons_of_mem _ hd))

theorem run_later_blocks (bs : List (List Char))
    (h : ∀ b ∈ bs, (Regexp.seq (Regexp.lit '.')
      (Regexp.plus (Regexp.cls [('a', 'z'), ('0', '9')]))).Matches b)
    (q : RuleState) (hq : q = RuleState.firstLabel ∨ q = RuleState.laterLabel) :
    q.run bs.flatten = RuleState.firstLabel ∨ q.run bs.flatten = RuleState.laterLabel := by
  induction bs generalizing q with
  | nil => exact hq
  | cons b rest ih =>
    obtain ⟨u, v, rfl, hu, hv⟩ := h b (List.mem_cons_self _ _)
    have hu' := lit_matches '.' u hu
    subst hu'
    obtain ⟨c0, l, rfl, hc0, hl⟩ := plus_cls_matches _ v hv
    have hstep : (q.step '.').step c0 = RuleState.laterLabel := by
      have h0 : laterLabelChar c0 = true := hc0
      rcases hq with rfl | rfl <;> simp [RuleState.step, h0]
    have hrun : q.run (['.'] ++ c0 :: l) = RuleState.laterLabel := by
      show ((q.step '.').step c0).run l = _
      rw [hstep]
      exact run_laterLabel l hl
    rw [List.flatten_cons, run_append, hrun]
    exact ih (fun b hb => h b (List.mem_cons_of_mem _ hb)) _ (Or.inr rfl)

/-- Every string the pattern matches is read by the recogniser into an
accepting state. -/
theorem regexpValidDomain_run (w : List Char) (h : regexpValidDomain.Matches w) :
    (RuleState.start.run w).accepting = true := by
  obtain ⟨u, v, rfl, hu, b, c, rfl, hb, bs, rfl, hbs⟩ := h
  obtain ⟨c0, l, rfl, hc0, hl⟩ := plus_cls_matches _ b hb
  have h0 : firstLabelChar c0 = true := hc0
  have hfirst : ∀ q, q = RuleState.start ∨ q = RuleState.leadingDot →
      q.run (c0 :: l) = RuleState.firstLabel := by
    intro q hq
    have hs : q.step c0 = RuleState.firstLabel := by
      rcases hq with rfl | rfl <;> simp [RuleState.step, h0, firstLabelChar_ne_dot c0 h0]
    show (q.step c0).run l = _
    rw [hs]
    exact run_firstLabel l hl
  have hu' : RuleState.start.run u = RuleState.start ∨
      RuleState.start.run u = RuleState.leadingDot := by
    rcases hu with hu | hu
    · rw [lit_matches '.' u hu]
      exact Or.inr rfl
    · have : u = [] := hu
      rw [this]
      exact Or.inl rfl
  rw [run_append, run_append, hfirst _ hu']
  rcases run_later_blocks bs hbs _ (Or.inl rfl) with h | h <;> rw [h] <;> rfl

theorem step_dot_not_accepting (q : RuleState) : (q.step '.').accepting = false := by
  cases q <;> decide

theorem step_dot_dot (q : RuleState) : (q.step '.').step '.' = RuleState.dead := by
  cases q <;> decide

theorem run_empty_label (w : List Char)
    (h : w = [] ∨ w = ['.'] ∨ ['.'] <:+ w ∨ ['.', '.'] <:+: w) :
    (RuleState.start.run w).accepting = false := by
  rcases h with rfl | rfl | ⟨u, rfl⟩ | ⟨p, t, rfl⟩
  · rfl
  · rfl
  · rw [run_append]
    exact step_dot_not_accepting _
  · rw [run_append, run_append]
    show ((((RuleState.start.run p).step '.').step '.').run t).accepting = false
    rw [step_dot_dot, run_dead]
    rfl

/-- C11: a string with an empty label (the empty string, the single dot, a
string that ends with a dot such as `invalid.`, a string that holds two dots in
a row) is rejected by `addDomain`: it returns the error and the receiver, its
rule set included, is what it was before the call. -/
theorem C11_empty_label_rejected (s : No6) (v : List Char)
    (h : v = [] ∨ v = ['.'] ∨ ['.'] <:+ v ∨ ['.', '.'] <:+: v) :
    s.addDomain v = (s, some (Error.notValidDomain v)) ∧
      (s.addDomain v).1.domains = s.domains := by
  have hm : MatchString regexpValidDomain v = false := by
    cases hv : MatchString regexpValidDomain v with
    | false => rfl
    | true =>
      have := regexpValidDomain_run v (fullMatch_sound _ _ hv)
      rw [run_empty_label v h] at this
      exact absurd this (by simp)
  rw [addDomain_of_invalid s v hm]
  exact ⟨rfl, rfl⟩

theorem C11_witness :
    ("invalid.".toList = [] ∨ "invalid.".toList = ['.'] ∨ ['.'] <:+ "invalid.".toList ∨
        ['.', '.'] <:+: "invalid.".toList) ∧
      New.addDomain "invalid.".toList = (New, some (Error.notValidDomain "invalid.".toList)) :=
  ⟨Or.inr (Or.inr (Or.inl ⟨"invalid".toList, rfl⟩)),
    (C11_empty_label_rejected New "invalid.".toList
      (Or.inr (Or.inr (Or.inl ⟨"invalid".toList, rfl⟩)))).1⟩

end CorednsNo6
